import Mathlib

/-!
Shallow embedding of the deliberation orchestrator and consensus engine
(`src/council/engine.py`, `src/council/types.py`): vote sanitizing,
first-place tallying, the consensus test, aggregate-rank elimination and
the round loop, together with theorems about their behaviour.
-/

namespace Council

/-- A ranked-choice vote (`types.py`, class `Vote`): the voter's name, the
ranking of argument authors best-first, and the round index. -/
structure Vote where
  voter : String
  ranking : List String
  iteration : Nat
deriving DecidableEq

/-- Python dict update `m[k] = m.get(k, 0) + d` on an insertion-ordered
association list: an existing key keeps its position and is incremented, a
new key is appended at the end, exactly as a Python dict stores it. -/
def bump : List (String × Nat) → String → Nat → List (String × Nat)
  | [], k, d => [(k, d)]
  | (k', v) :: rest, k, d =>
    if k' = k then (k', v + d) :: rest else (k', v) :: bump rest k d

/-- One step of the first-place tally loop in `_consensus_from_votes`
(`engine.py` lines 127-130): a vote with a non-empty ranking adds 1 to the
count of its first-ranked name. -/
def addFirstPlace (m : List (String × Nat)) (v : Vote) : List (String × Nat) :=
  match v.ranking with
  | [] => m
  | first :: _ => bump m first 1

/-- `first_place_counts` of `_consensus_from_votes`: the tally of first-place
votes per candidate, in dict insertion order. -/
def firstPlaceCounts (votes : List Vote) : List (String × Nat) :=
  votes.foldl addFirstPlace []

/-- One step of the leading-candidate loop (`engine.py` lines 134-137): a
later entry replaces the current leader only when its count is strictly
greater. -/
def pickTopStep (acc : Option String × Nat) (kv : String × Nat) :
    Option String × Nat :=
  if kv.2 > acc.2 then (some kv.1, kv.2) else acc

/-- The `top_candidate, top_count` loop of `_consensus_from_votes`, starting
from `(None, 0)` and iterating the tally in insertion order. -/
def pickTop (m : List (String × Nat)) : Option String × Nat :=
  m.foldl pickTopStep (none, 0)

/-- Python truthiness of `top_candidate` in `if top_candidate and ...`
(`engine.py` line 138): `None` and the empty string are both falsy. -/
def pyTruthy : Option String → Bool
  | none => false
  | some s => !(decide (s = ""))

/-- `_consensus_from_votes` (`engine.py` lines 124-140); the float comparison
`top_count / total >= threshold` is modelled over ℚ. -/
def consensusFromVotes (votes : List Vote) (threshold : ℚ) :
    Bool × Option String :=
  let counts := firstPlaceCounts votes
  let total := votes.length
  if total = 0 then (false, none)
  else
    let top := pickTop counts
    if pyTruthy top.1 ∧ ((top.2 : ℚ) / (total : ℚ) ≥ threshold) then
      (true, top.1)
    else (false, top.1)

/-- Python `str.replace(old, new)` for one-character arguments, over the
character list of the string. -/
def replaceChar (old new : Char) : List Char → List Char
  | [] => []
  | c :: cs => (if c = old then new else c) :: replaceChar old new cs

/-- Python `str.split(sep)` for a one-character separator: splits at every
occurrence, keeping empty pieces, and returns `[""]` on the empty string. -/
def splitChar (sep : Char) : List Char → List (List Char)
  | [] => [[]]
  | c :: cs =>
    match splitChar sep cs, decide (c = sep) with
    | rest, true => [] :: rest
    | [], false => [[c]]
    | t :: ts, false => (c :: t) :: ts

/-- Python `str.strip()`: drop leading and trailing whitespace. -/
def stripChars (s : List Char) : List Char :=
  ((s.dropWhile Char.isWhitespace).reverse.dropWhile Char.isWhitespace).reverse

/-- Token extraction in `_prompt_for_vote` (`engine.py` line 108):
`raw.replace` of newlines by commas, split on commas, each token stripped,
empty tokens dropped. -/
def splitVoteText (raw : String) : List String :=
  (((splitChar ',' (replaceChar '\n' ',' raw.data)).map stripChars).filter
    (fun t => !t.isEmpty)).map String.mk

/-- The filtering loop of `_prompt_for_vote` (`engine.py` lines 110-116):
keep tokens that exactly name an eligible author, in first-seen order,
deduplicating repeats.  The Python `seen` set always holds exactly the
elements of `valid`, so membership in the accumulator stands in for it. -/
def keepValid (authors : List String) : List String → List String → List String
  | [], acc => acc
  | n :: ns, acc =>
    if n ∈ authors ∧ n ∉ acc then keepValid authors ns (acc ++ [n])
    else keepValid authors ns acc

/-- The vote-sanitizing tail of `_prompt_for_vote` (`engine.py` lines
108-121): keep valid author names, then append every author missing from
`valid` in author-list order. -/
def sanitizeRanking (raw : String) (authors : List String) : List String :=
  let valid := keepValid authors (splitVoteText raw) []
  valid ++ authors.filter (fun a => !decide (a ∈ valid))

/-- One ranking's contribution in `_aggregate_ranks` (`engine.py` lines
194-196): the name at 0-based position `idx` receives `idx + 1` points. -/
def addVoteRanks (m : List (String × Nat)) (v : Vote) : List (String × Nat) :=
  v.ranking.enum.foldl (fun m' p => bump m' p.2 (p.1 + 1)) m

/-- `_aggregate_ranks` (`engine.py` lines 192-197): sum of 1-based rank
positions per agent across all votes, in dict insertion order. -/
def aggregateRanks (votes : List Vote) : List (String × Nat) :=
  votes.foldl addVoteRanks []

/-- One step of Python `max(..., key=lambda kv: kv[1])`: a later item
replaces the current best only when strictly greater, so among equals the
first in iteration order wins. -/
def pyMaxStep (best x : String × Nat) : String × Nat :=
  if x.2 > best.2 then x else best

/-- Python `max(ranks.items(), key=lambda kv: kv[1])[0]` (`engine.py` line
292); `none` models the `ValueError` that `max` raises on an empty dict. -/
def pyMaxBySnd : List (String × Nat) → Option String
  | [] => none
  | kv :: rest => some (rest.foldl pyMaxStep kv).1

/-- `DebateConfig` (`types.py` lines 37-43).  The Python `int` round counts
are modelled as `Nat` (`range(0, n)` is empty for every `n ≤ 0`) and the
float threshold as ℚ. -/
structure DebateConfig where
  question : String
  judge_model : String
  min_iterations : Nat
  max_iterations : Nat
  consensus_threshold : ℚ
deriving DecidableEq

/-- Pydantic construction of `DebateConfig`: the class declares no range
validators on any of its fields (`types.py` lines 37-43), so validation
checks only the field types and every well-typed value is accepted. -/
def mkDebateConfig (question judge_model : String) (minIt maxIt : Nat)
    (threshold : ℚ) : Option DebateConfig :=
  some ⟨question, judge_model, minIt, maxIt, threshold⟩

/-- The field defaults of `DebateConfig` (`types.py` lines 40-43). -/
def defaultDebateConfig (question : String) : DebateConfig :=
  ⟨question, "kimi-k2:1t-cloud", 2, 5, 3/5⟩

/-- `IterationResult` (`types.py` lines 29-34), augmented with the roster in
force during the round.  Argument contents are external LLM text that never
reaches control flow, so the round's arguments are represented by their
author list, which is exactly what voting and consensus consume. -/
structure RoundRecord where
  iteration : Nat
  authors : List String
  votes : List Vote
  consensus_reached : Bool
  consensus_candidate : Option String
deriving DecidableEq

/-- The elimination step of `run_debate` (`engine.py` lines 289-294): when
more than two personalities remain, drop every personality named like the
agent with the highest aggregate score; `none` models the `ValueError` of
`max` on an empty tally. -/
def eliminationStep (roster : List String) (votes : List Vote) :
    Option (List String) :=
  if roster.length > 2 then
    match pyMaxBySnd (aggregateRanks votes) with
    | none => none
    | some worst => some (roster.filter (fun p => !decide (p = worst)))
  else some roster

/-- The vote-collection loop of a round (`engine.py` lines 263-272): every
roster member votes, with the sanitized ranking built from its raw LLM
text. -/
def mkVotes (rawVote : Nat → String → String) (i : Nat)
    (roster : List String) : List Vote :=
  roster.map (fun voter =>
    (⟨voter, sanitizeRanking (rawVote i voter) roster, i⟩ : Vote))

/-- The round loop of `run_debate` (`engine.py` lines 216-298).  `fuel`
counts the remaining iterations of `range(0, max_iterations)` and `i` is the
current round index; `rawVote i voter` is the raw LLM vote text returned to
`_prompt_for_vote`, the only generated text that reaches control flow.
Returns the appended round records and the final roster; `none` propagates
the elimination `ValueError`. -/
def runRoundsAux (cfg : DebateConfig) (rawVote : Nat → String → String)
    (elimination : Bool) :
    Nat → Nat → List String → Option (List RoundRecord × List String)
  | 0, _, roster => some ([], roster)
  | fuel + 1, i, roster =>
    let votes := mkVotes rawVote i roster
    let res := consensusFromVotes votes cfg.consensus_threshold
    let rec0 : RoundRecord := ⟨i, roster, votes, res.1, res.2⟩
    match (if elimination then eliminationStep roster votes else some roster) with
    | none => none
    | some roster2 =>
      if res.1 = true ∧ i + 1 ≥ cfg.min_iterations then some ([rec0], roster2)
      else
        match runRoundsAux cfg rawVote elimination fuel (i + 1) roster2 with
        | none => none
        | some (rest, fin) => some (rec0 :: rest, fin)

/-- `run_debate` (`engine.py` lines 200-356): run the round loop, then the
final rendering step, whose `state.iterations[-1]` indexing (`engine.py`
line 320) fails on an empty history; that failure is the `none` case. -/
def run_debate (cfg : DebateConfig) (roster : List String)
    (rawVote : Nat → String → String) (elimination : Bool) :
    Option (List RoundRecord × List String) :=
  match runRoundsAux cfg rawVote elimination cfg.max_iterations 0 roster with
  | none => none
  | some (iters, fin) =>
    match iters.getLast? with
    | none => none
    | some _ => some (iters, fin)

/-!
Executable twins.  The kernel cannot evaluate rational division (`Rat.mul`
and friends are irreducible and `Nat.gcd` is defined by well-founded
recursion), so for evaluating concrete scenarios we provide twins of the
consensus test and the round loop in which the threshold comparison
`threshold ≤ count / total` is replaced by the integer cross-multiplication
`threshold.num * total ≤ count * threshold.den`, and prove that the twins
agree with the definitions above everywhere.
-/

/-- Executable form of `threshold ≤ count / total`: integer
cross-multiplication against the reduced numerator and denominator. -/
def ratLeDiv (threshold : ℚ) (count total : Nat) : Bool :=
  decide (threshold.num * (total : Int) ≤ (count : Int) * (threshold.den : Int))

/-- Executable twin of `consensusFromVotes`. -/
def consensusFromVotesExec (votes : List Vote) (threshold : ℚ) :
    Bool × Option String :=
  let counts := firstPlaceCounts votes
  let total := votes.length
  if total = 0 then (false, none)
  else
    let top := pickTop counts
    if pyTruthy top.1 && ratLeDiv threshold top.2 total then (true, top.1)
    else (false, top.1)

/-- Executable twin of `runRoundsAux`. -/
def runRoundsAuxExec (cfg : DebateConfig) (rawVote : Nat → String → String)
    (elimination : Bool) :
    Nat → Nat → List String → Option (List RoundRecord × List String)
  | 0, _, roster => some ([], roster)
  | fuel + 1, i, roster =>
    let votes := mkVotes rawVote i roster
    let res := consensusFromVotesExec votes cfg.consensus_threshold
    let rec0 : RoundRecord := ⟨i, roster, votes, res.1, res.2⟩
    match (if elimination then eliminationStep roster votes else some roster) with
    | none => none
    | some roster2 =>
      if res.1 = true ∧ i + 1 ≥ cfg.min_iterations then some ([rec0], roster2)
      else
        match runRoundsAuxExec cfg rawVote elimination fuel (i + 1) roster2 with
        | none => none
        | some (rest, fin) => some (rec0 :: rest, fin)

/-- Executable twin of `run_debate`. -/
def run_debateExec (cfg : DebateConfig) (roster : List String)
    (rawVote : Nat → String → String) (elimination : Bool) :
    Option (List RoundRecord × List String) :=
  match runRoundsAuxExec cfg rawVote elimination cfg.max_iterations 0 roster with
  | none => none
  | some (iters, fin) =>
    match iters.getLast? with
    | none => none
    | some _ => some (iters, fin)

/-- The `IterationResult` recorded for round `i` (`engine.py` lines
275-282), as a function of the raw-vote oracle and the round's roster. -/
def roundRec (cfg : DebateConfig) (rv : Nat → String → String) (i : Nat)
    (roster : List String) : RoundRecord :=
  ⟨i, roster, mkVotes rv i roster,
    (consensusFromVotes (mkVotes rv i roster) cfg.consensus_threshold).1,
    (consensusFromVotes (mkVotes rv i roster) cfg.consensus_threshold).2⟩

/-- The rational 1/2 given directly in lowest terms, so that concrete
evaluations involving the threshold 0.5 reduce in the kernel. -/
def oneHalf : ℚ := ⟨1, 2, by decide, Nat.coprime_one_left 2⟩


/-- `ratLeDiv` agrees with the rational comparison whenever `total` is
positive. -/
theorem ratLeDiv_iff (threshold : ℚ) (count total : Nat) (ht : 0 < total) :
    ratLeDiv threshold count total = true ↔
      threshold ≤ (count : ℚ) / (total : ℚ) := by
  have htq : (0 : ℚ) < (total : ℚ) := by exact_mod_cast ht
  have hden : (0 : ℚ) < ((threshold.den : ℕ) : ℚ) := by
    exact_mod_cast threshold.pos
  have key : threshold ≤ (count : ℚ) / (total : ℚ) ↔
      (threshold.num : ℚ) * (total : ℚ) ≤ (count : ℚ) * ((threshold.den : ℕ) : ℚ) := by
    rw [le_div_iff₀ htq]
    conv_lhs => rw [← Rat.num_div_den threshold]
    rw [div_mul_eq_mul_div, div_le_iff₀ hden]
  rw [ratLeDiv, decide_eq_true_iff, key]
  norm_cast

/-- The executable twin computes exactly `consensusFromVotes`. -/
theorem consensusFromVotes_eq_exec (votes : List Vote) (threshold : ℚ) :
    consensusFromVotes votes threshold = consensusFromVotesExec votes threshold := by
  unfold consensusFromVotes consensusFromVotesExec
  by_cases h : votes.length = 0
  · simp [h]
  · simp only [if_neg h]
    apply if_congr _ rfl rfl
    rw [Bool.and_eq_true, ratLeDiv_iff _ _ _ (Nat.pos_of_ne_zero h), ge_iff_le]

/-- The executable twin computes exactly `runRoundsAux`. -/
theorem runRoundsAux_eq_exec (cfg : DebateConfig)
    (rawVote : Nat → String → String) (elimination : Bool) :
    ∀ fuel i roster, runRoundsAux cfg rawVote elimination fuel i roster =
      runRoundsAuxExec cfg rawVote elimination fuel i roster := by
  intro fuel
  induction fuel with
  | zero => intro i roster; rfl
  | succ n ih =>
    intro i roster
    simp only [runRoundsAux, runRoundsAuxExec, consensusFromVotes_eq_exec, ih]

/-- The executable twin computes exactly `run_debate`. -/
theorem run_debate_eq_exec (cfg : DebateConfig) (roster : List String)
    (rawVote : Nat → String → String) (elimination : Bool) :
    run_debate cfg roster rawVote elimination =
      run_debateExec cfg roster rawVote elimination := by
  unfold run_debate run_debateExec
  rw [runRoundsAux_eq_exec]

/-!  ## The vote sanitizer (claim C1)  -/

/-- Invariant of the `keepValid` loop: starting from a duplicate-free
accumulator, the result is duplicate-free and every element comes from the
accumulator or from the eligible author list. -/
lemma keepValid_spec (authors : List String) :
    ∀ ns acc, acc.Nodup →
      (keepValid authors ns acc).Nodup ∧
      ∀ x ∈ keepValid authors ns acc, x ∈ acc ∨ x ∈ authors := by
  intro ns
  induction ns with
  | nil => intro acc h; exact ⟨h, fun x hx => Or.inl hx⟩
  | cons n ns ih =>
    intro acc h
    simp only [keepValid]
    by_cases hc : n ∈ authors ∧ n ∉ acc
    · rw [if_pos hc]
      have hnd : (acc ++ [n]).Nodup := by
        simp [List.nodup_append, h, hc.2]
      obtain ⟨h1, h2⟩ := ih (acc ++ [n]) hnd
      refine ⟨h1, fun x hx => ?_⟩
      rcases h2 x hx with hx' | hx'
      · rcases List.mem_append.1 hx' with hx'' | hx''
        · exact Or.inl hx''
        · simp only [List.mem_singleton] at hx''
          subst hx''
          exact Or.inr hc.1
      · exact Or.inr hx'
    · rw [if_neg hc]
      exact ih acc h

/-- C1: for every raw vote text and every non-empty duplicate-free list of
eligible author names, the sanitized ranking is a permutation of the author
list (kept names first in first-seen order, missing authors appended), and
the Scenario D instance: raw text `"X, X, Q, Y"` over eligible authors
X, Y, Z sanitizes to `[X, Y, Z]`. -/
theorem C1_sanitizer_perm :
    (∀ (raw : String) (authors : List String), authors ≠ [] →
      authors.Nodup → (sanitizeRanking raw authors).Perm authors) ∧
    sanitizeRanking "X, X, Q, Y" ["X", "Y", "Z"] = ["X", "Y", "Z"] := by
  constructor
  · intro raw authors hne hnd
    simp only [sanitizeRanking]
    set valid := keepValid authors (splitVoteText raw) [] with hv
    obtain ⟨hvnd, hvsub⟩ := keepValid_spec authors (splitVoteText raw) [] List.nodup_nil
    rw [← hv] at hvnd hvsub
    have hsub : ∀ x ∈ valid, x ∈ authors := by
      intro x hx
      rcases hvsub x hx with h | h
      · exact absurd h (List.not_mem_nil x)
      · exact h
    have h1 : valid.Perm (authors.filter (fun a => decide (a ∈ valid))) := by
      rw [List.perm_ext_iff_of_nodup hvnd (hnd.filter _)]
      intro a
      simp only [List.mem_filter, decide_eq_true_eq]
      exact ⟨fun ha => ⟨hsub a ha, ha⟩, fun ha => ha.2⟩
    have h2 := List.filter_append_perm (fun a => decide (a ∈ valid)) authors
    exact (h1.append_right _).trans h2
  · decide

/-- Witness for C1 at the Scenario D input. -/
theorem C1_sanitizer_perm_witness :
    (["X", "Y", "Z"] : List String) ≠ [] ∧
    (["X", "Y", "Z"] : List String).Nodup ∧
    (sanitizeRanking "X, X, Q, Y" ["X", "Y", "Z"]).Perm ["X", "Y", "Z"] :=
  ⟨by decide, by decide,
    C1_sanitizer_perm.1 "X, X, Q, Y" ["X", "Y", "Z"] (by decide) (by decide)⟩

/-!  ## Tally and argmax lemmas  -/

lemma bump_ne_nil (m : List (String × Nat)) (k : String) (d : Nat) :
    bump m k d ≠ [] := by
  cases m with
  | nil => simp [bump]
  | cons kv rest =>
    obtain ⟨k', v⟩ := kv
    simp only [bump]
    split <;> simp

lemma mem_fst_bump (m : List (String × Nat)) (k : String) (d : Nat)
    (x : String) :
    x ∈ (bump m k d).map Prod.fst ↔ x ∈ m.map Prod.fst ∨ x = k := by
  induction m with
  | nil => simp [bump]
  | cons kv rest ih =>
    obtain ⟨k', v⟩ := kv
    simp only [bump]
    by_cases h : k' = k
    · rw [if_pos h]
      subst h
      simp [or_assoc]
      tauto
    · rw [if_neg h]
      simp only [List.map_cons, List.mem_cons, ih]
      tauto

lemma bump_val_ge (m : List (String × Nat)) (k : String) (d : Nat)
    (hm : ∀ p ∈ m, 1 ≤ p.2) (hd : 1 ≤ d) :
    ∀ p ∈ bump m k d, 1 ≤ p.2 := by
  induction m with
  | nil =>
    intro p hp
    simp only [bump, List.mem_singleton] at hp
    subst hp
    exact hd
  | cons kv rest ih =>
    obtain ⟨k', v⟩ := kv
    intro p hp
    simp only [bump] at hp
    by_cases h : k' = k
    · rw [if_pos h] at hp
      rcases List.mem_cons.1 hp with rfl | hp'
      · have := hm (k', v) (List.mem_cons_self _ _)
        simp only at this ⊢
        omega
      · exact hm p (List.mem_cons_of_mem _ hp')
    · rw [if_neg h] at hp
      rcases List.mem_cons.1 hp with rfl | hp'
      · exact hm _ (List.mem_cons_self _ _)
      · exact ih (fun q hq => hm q (List.mem_cons_of_mem _ hq)) p hp'

lemma foldl_addFirstPlace_val (votes : List Vote) :
    ∀ m, (∀ p ∈ m, 1 ≤ p.2) →
      ∀ p ∈ votes.foldl addFirstPlace m, 1 ≤ p.2 := by
  induction votes with
  | nil => intro m hm; simpa using hm
  | cons v vs ih =>
    intro m hm
    simp only [List.foldl_cons]
    apply ih
    cases hr : v.ranking with
    | nil => simpa [addFirstPlace, hr] using hm
    | cons hd tl =>
      simp only [addFirstPlace, hr]
      exact bump_val_ge m hd 1 hm le_rfl

lemma firstPlaceCounts_val_ge (votes : List Vote) :
    ∀ p ∈ firstPlaceCounts votes, 1 ≤ p.2 :=
  foldl_addFirstPlace_val votes [] (by simp)

lemma foldl_addFirstPlace_ne_nil (votes : List Vote) :
    ∀ m : List (String × Nat),
      (m ≠ [] ∨ ∃ v ∈ votes, v.ranking ≠ []) →
      votes.foldl addFirstPlace m ≠ [] := by
  induction votes with
  | nil =>
    intro m h
    rcases h with h | ⟨v, hv, _⟩
    · simpa using h
    · simp at hv
  | cons v vs ih =>
    intro m h
    simp only [List.foldl_cons]
    cases hr : v.ranking with
    | nil =>
      apply ih
      simp only [addFirstPlace, hr]
      rcases h with h | ⟨w, hw, hwr⟩
      · exact Or.inl h
      · rcases List.mem_cons.1 hw with rfl | hw'
        · exact absurd hr hwr
        · exact Or.inr ⟨w, hw', hwr⟩
    | cons hd tl =>
      apply ih
      simp only [addFirstPlace, hr]
      exact Or.inl (bump_ne_nil m hd 1)

lemma firstPlaceCounts_fst_sub (P : String → Prop) (votes : List Vote)
    (hv : ∀ v ∈ votes, ∀ n ∈ v.ranking, P n) :
    ∀ x ∈ (firstPlaceCounts votes).map Prod.fst, P x := by
  suffices h : ∀ (vs : List Vote) (m : List (String × Nat)),
      (∀ x ∈ m.map Prod.fst, P x) →
      (∀ v ∈ vs, ∀ n ∈ v.ranking, P n) →
      ∀ x ∈ (vs.foldl addFirstPlace m).map Prod.fst, P x by
    exact h votes [] (by simp) hv
  intro vs
  induction vs with
  | nil => intro m hm _; simpa using hm
  | cons v rest ih =>
    intro m hm hrest
    simp only [List.foldl_cons]
    apply ih
    · cases hr : v.ranking with
      | nil => simpa [addFirstPlace, hr] using hm
      | cons hd tl =>
        simp only [addFirstPlace, hr]
        intro x hx
        rcases (mem_fst_bump m hd 1 x).1 hx with hx' | rfl
        · exact hm x hx'
        · exact hrest v (List.mem_cons_self _ _) x (hr ▸ List.mem_cons_self _ _)
    · exact fun w hw => hrest w (List.mem_cons_of_mem _ hw)

lemma pickTop_go (m : List (String × Nat)) :
    ∀ acc : Option String × Nat,
      acc.2 ≤ (m.foldl pickTopStep acc).2 ∧
      (∀ p ∈ m, p.2 ≤ (m.foldl pickTopStep acc).2) ∧
      (m.foldl pickTopStep acc = acc ∨
        ∃ k pre post, m = pre ++ (k, (m.foldl pickTopStep acc).2) :: post ∧
          (m.foldl pickTopStep acc).1 = some k ∧
          acc.2 < (m.foldl pickTopStep acc).2 ∧
          ∀ p ∈ pre, p.2 < (m.foldl pickTopStep acc).2) := by
  induction m with
  | nil => intro acc; simp
  | cons kv rest ih =>
    intro acc
    simp only [List.foldl_cons]
    by_cases h : kv.2 > acc.2
    · have hstep : pickTopStep acc kv = (some kv.1, kv.2) := by
        simp [pickTopStep, h]
      rw [hstep]
      obtain ⟨hle, hmem, hdisj⟩ := ih (some kv.1, kv.2)
      refine ⟨le_trans (le_of_lt h) hle, ?_, ?_⟩
      · intro p hp
        rcases List.mem_cons.1 hp with rfl | hp'
        · exact hle
        · exact hmem p hp'
      · rcases hdisj with hd | ⟨k, pre, post, heq, h1, h2, h3⟩
        · refine Or.inr ⟨kv.1, [], rest, ?_, ?_, ?_, by simp⟩
          · rw [hd]; simp
          · rw [hd]
          · rw [hd]; exact h
        · refine Or.inr ⟨k, kv :: pre, post, ?_, h1, lt_trans h h2, ?_⟩
          · conv_lhs => rw [heq]
            rfl
          intro p hp
          rcases List.mem_cons.1 hp with rfl | hp'
          · exact h2
          · exact h3 p hp'
    · have hstep : pickTopStep acc kv = acc := by
        simp [pickTopStep, h]
      rw [hstep]
      obtain ⟨hle, hmem, hdisj⟩ := ih acc
      refine ⟨hle, ?_, ?_⟩
      · intro p hp
        rcases List.mem_cons.1 hp with rfl | hp'
        · exact le_trans (Nat.le_of_not_lt h) hle
        · exact hmem p hp'
      · rcases hdisj with hd | ⟨k, pre, post, heq, h1, h2, h3⟩
        · exact Or.inl hd
        · refine Or.inr ⟨k, kv :: pre, post, ?_, h1, h2, ?_⟩
          · conv_lhs => rw [heq]
            rfl
          intro p hp
          rcases List.mem_cons.1 hp with rfl | hp'
          · exact lt_of_le_of_lt (Nat.le_of_not_lt h) h2
          · exact h3 p hp'

lemma pickTop_spec (m : List (String × Nat)) (k : String)
    (h : (pickTop m).1 = some k) :
    ∃ pre post, m = pre ++ (k, (pickTop m).2) :: post ∧
      (∀ p ∈ pre, p.2 < (pickTop m).2) ∧
      ∀ p ∈ m, p.2 ≤ (pickTop m).2 := by
  obtain ⟨_, hmem, hdisj⟩ := pickTop_go m (none, 0)
  rcases hdisj with hd | ⟨k', pre, post, heq, h1, _, h3⟩
  · have hp : pickTop m = (none, 0) := hd
    rw [hp] at h
    simp at h
  · have hk : k' = k := by
      have := h1.symm.trans h
      exact Option.some.inj this
    subst hk
    exact ⟨pre, post, heq, h3, hmem⟩

lemma pickTop_fst_some (m : List (String × Nat)) (hne : m ≠ [])
    (hval : ∀ p ∈ m, 1 ≤ p.2) : ∃ k, (pickTop m).1 = some k := by
  obtain ⟨_, hmem, hdisj⟩ := pickTop_go m (none, 0)
  rcases hdisj with hd | ⟨k, _, _, _, h1, _, _⟩
  · exfalso
    cases m with
    | nil => exact hne rfl
    | cons p rest =>
      have h1 := hval p (List.mem_cons_self _ _)
      have h2 := hmem p (List.mem_cons_self _ _)
      rw [hd] at h2
      simp only at h2
      omega
  · exact ⟨k, h1⟩

lemma pickTop_mem_fst (m : List (String × Nat)) (k : String)
    (h : (pickTop m).1 = some k) : k ∈ m.map Prod.fst := by
  obtain ⟨pre, post, heq, _, _⟩ := pickTop_spec m k h
  rw [heq]
  simp

lemma pyMax_go (m : List (String × Nat)) :
    ∀ best : String × Nat,
      best.2 ≤ (m.foldl pyMaxStep best).2 ∧
      (∀ p ∈ m, p.2 ≤ (m.foldl pyMaxStep best).2) ∧
      (m.foldl pyMaxStep best = best ∨
        ∃ pre post, m = pre ++ (m.foldl pyMaxStep best) :: post ∧
          best.2 < (m.foldl pyMaxStep best).2 ∧
          ∀ p ∈ pre, p.2 < (m.foldl pyMaxStep best).2) := by
  induction m with
  | nil => intro best; simp
  | cons kv rest ih =>
    intro best
    simp only [List.foldl_cons]
    by_cases h : kv.2 > best.2
    · have hstep : pyMaxStep best kv = kv := by simp [pyMaxStep, h]
      rw [hstep]
      obtain ⟨hle, hmem, hdisj⟩ := ih kv
      refine ⟨le_trans (le_of_lt h) hle, ?_, ?_⟩
      · intro p hp
        rcases List.mem_cons.1 hp with rfl | hp'
        · exact hle
        · exact hmem p hp'
      · rcases hdisj with hd | ⟨pre, post, heq, h2, h3⟩
        · exact Or.inr ⟨[], rest, by rw [hd]; simp, by rw [hd]; exact h, by simp⟩
        · refine Or.inr ⟨kv :: pre, post, ?_, lt_trans h h2, ?_⟩
          · conv_lhs => rw [heq]
            rfl
          intro p hp
          rcases List.mem_cons.1 hp with rfl | hp'
          · exact h2
          · exact h3 p hp'
    · have hstep : pyMaxStep best kv = best := by simp [pyMaxStep, h]
      rw [hstep]
      obtain ⟨hle, hmem, hdisj⟩ := ih best
      refine ⟨hle, ?_, ?_⟩
      · intro p hp
        rcases List.mem_cons.1 hp with rfl | hp'
        · exact le_trans (Nat.le_of_not_lt h) hle
        · exact hmem p hp'
      · rcases hdisj with hd | ⟨pre, post, heq, h2, h3⟩
        · exact Or.inl hd
        · refine Or.inr ⟨kv :: pre, post, ?_, h2, ?_⟩
          · conv_lhs => rw [heq]
            rfl
          intro p hp
          rcases List.mem_cons.1 hp with rfl | hp'
          · exact lt_of_le_of_lt (Nat.le_of_not_lt h) h2
          · exact h3 p hp'

lemma pyMaxBySnd_spec (m : List (String × Nat)) (w : String)
    (h : pyMaxBySnd m = some w) :
    ∃ c pre post, m = pre ++ (w, c) :: post ∧ (∀ p ∈ pre, p.2 < c) ∧
      ∀ p ∈ m, p.2 ≤ c := by
  cases m with
  | nil => cases h
  | cons kv rest =>
    simp only [pyMaxBySnd, Option.some.injEq] at h
    obtain ⟨hle, hmem, hdisj⟩ := pyMax_go rest kv
    rcases hdisj with hd | ⟨pre, post, heq, h2, h3⟩
    · have hkv : (w, kv.2) = kv := by
        rw [hd] at h
        rw [← h]
      refine ⟨kv.2, [], rest, by rw [hkv]; rfl, by simp, ?_⟩
      intro p hp
      rcases List.mem_cons.1 hp with rfl | hp'
      · exact le_rfl
      · exact le_trans (hmem p hp') (by rw [hd])
    · have hr : (w, (rest.foldl pyMaxStep kv).2) = rest.foldl pyMaxStep kv := by
        rw [← h]
      refine ⟨(rest.foldl pyMaxStep kv).2, kv :: pre, post, ?_, ?_, ?_⟩
      · rw [hr, List.cons_append, ← heq]
      · intro p hp
        rcases List.mem_cons.1 hp with rfl | hp'
        · exact h2
        · exact h3 p hp'
      · intro p hp
        rcases List.mem_cons.1 hp with rfl | hp'
        · exact hle
        · exact hmem p hp'

lemma pyMaxBySnd_mem_fst (m : List (String × Nat)) (w : String)
    (h : pyMaxBySnd m = some w) : w ∈ m.map Prod.fst := by
  obtain ⟨c, pre, post, heq, _, _⟩ := pyMaxBySnd_spec m w h
  rw [heq]
  simp

/-!  ## The consensus test (claims C2, C3, C7)  -/

lemma consensusFromVotes_snd (votes : List Vote) (threshold : ℚ)
    (h : votes.length ≠ 0) :
    (consensusFromVotes votes threshold).2 =
      (pickTop (firstPlaceCounts votes)).1 := by
  simp only [consensusFromVotes, if_neg h]
  split <;> rfl

lemma consensusFromVotes_fst (votes : List Vote) (threshold : ℚ)
    (h : votes.length ≠ 0) :
    ((consensusFromVotes votes threshold).1 = true ↔
      pyTruthy (pickTop (firstPlaceCounts votes)).1 = true ∧
        ((pickTop (firstPlaceCounts votes)).2 : ℚ) / (votes.length : ℚ) ≥
          threshold) := by
  simp only [consensusFromVotes, if_neg h]
  split
  next hcond => simpa using hcond
  next hcond => simpa using hcond

/-- C2 (amended): provided every name appearing in a ranking is a non-empty
string, consensus is reached exactly when there is at least one vote and the
leading first-place count over the total number of votes reaches the
threshold; and on an empty vote list the aggregator returns
`(False, None)` without error.  (The unamended claim fails when the leading
candidate is the empty string, which Python treats as falsy; see the
counterexample.) -/
theorem C2_consensus_iff :
    (∀ (votes : List Vote) (threshold : ℚ), 0 < threshold → threshold ≤ 1 →
      (∀ v ∈ votes, ∀ n ∈ v.ranking, n ≠ "") →
      ((consensusFromVotes votes threshold).1 = true ↔
        0 < votes.length ∧
          ((pickTop (firstPlaceCounts votes)).2 : ℚ) / (votes.length : ℚ) ≥
            threshold)) ∧
    ∀ threshold : ℚ, consensusFromVotes [] threshold = (false, none) := by
  constructor
  · intro votes threshold h0 h1 hn
    by_cases hlen : votes.length = 0
    · rw [List.length_eq_zero] at hlen
      subst hlen
      simp [consensusFromVotes]
    · rw [consensusFromVotes_fst _ _ hlen]
      constructor
      · rintro ⟨_, hq⟩
        exact ⟨Nat.pos_of_ne_zero hlen, hq⟩
      · rintro ⟨_, hq⟩
        refine ⟨?_, hq⟩
        by_cases hc : firstPlaceCounts votes = []
        · exfalso
          rw [hc] at hq
          simp only [pickTop, List.foldl_nil, Nat.cast_zero, zero_div] at hq
          exact absurd (lt_of_lt_of_le h0 hq) (lt_irrefl 0)
        · obtain ⟨k, hk⟩ := pickTop_fst_some _ hc (firstPlaceCounts_val_ge votes)
          rw [hk]
          have hkne : k ≠ "" :=
            firstPlaceCounts_fst_sub (· ≠ "") votes hn k
              (pickTop_mem_fst _ k hk)
          simp [pyTruthy, hkne]
  · intro threshold
    rfl

/-- Witness for the amended C2 at the Scenario A votes with the unanimity
threshold 1. -/
theorem C2_consensus_iff_witness :
    (0 : ℚ) < 1 ∧ (1 : ℚ) ≤ 1 ∧
    ((consensusFromVotes
        [⟨"a", ["X", "Y", "Z"], 0⟩, ⟨"b", ["X", "Z", "Y"], 0⟩,
         ⟨"c", ["Y", "X", "Z"], 0⟩] 1).1 = true ↔
      0 < ([⟨"a", ["X", "Y", "Z"], 0⟩, ⟨"b", ["X", "Z", "Y"], 0⟩,
         ⟨"c", ["Y", "X", "Z"], 0⟩] : List Vote).length ∧
        ((pickTop (firstPlaceCounts
            [⟨"a", ["X", "Y", "Z"], 0⟩, ⟨"b", ["X", "Z", "Y"], 0⟩,
             ⟨"c", ["Y", "X", "Z"], 0⟩])).2 : ℚ) /
          (([⟨"a", ["X", "Y", "Z"], 0⟩, ⟨"b", ["X", "Z", "Y"], 0⟩,
             ⟨"c", ["Y", "X", "Z"], 0⟩] : List Vote).length : ℚ) ≥ 1) :=
  ⟨zero_lt_one, le_refl 1,
    C2_consensus_iff.1 _ 1 zero_lt_one (le_refl 1) (by decide)⟩

/-- Counterexample to C2 as stated: one vote whose ranking is the single
empty-string name, with threshold 1 ∈ (0,1].  The total is positive and the
leading first-place fraction is 1/1 ≥ 1, yet the aggregator reports
`consensus_reached = False`, because Python's `if top_candidate and ...`
treats the empty-string candidate as falsy. -/
theorem C2_consensus_iff_counterexample :
    (consensusFromVotes [⟨"v", [""], 0⟩] 1).1 = false ∧
    0 < ([⟨"v", [""], 0⟩] : List Vote).length ∧
    ((pickTop (firstPlaceCounts [⟨"v", [""], 0⟩])).2 : ℚ) /
      (([⟨"v", [""], 0⟩] : List Vote).length : ℚ) ≥ 1 ∧
    (0 : ℚ) < 1 ∧ (1 : ℚ) ≤ 1 := by
  refine ⟨?_, by decide, ?_, zero_lt_one, le_refl 1⟩
  · rw [consensusFromVotes_eq_exec]
    decide
  · have h : (pickTop (firstPlaceCounts [⟨"v", [""], 0⟩])).2 = 1 := by decide
    rw [h]
    norm_num

/-- C3: whenever the vote list is non-empty and at least one ranking is
non-empty, the aggregator reports a leading candidate even if the threshold
test fails: the second component is never `None`. -/
theorem C3_leading_candidate_reported :
    ∀ (votes : List Vote) (threshold : ℚ), votes ≠ [] →
      (∃ v ∈ votes, v.ranking ≠ []) →
      (consensusFromVotes votes threshold).2 ≠ none := by
  intro votes threshold hne hex
  have hlen : votes.length ≠ 0 := by
    simpa [List.length_eq_zero] using hne
  rw [consensusFromVotes_snd _ _ hlen]
  have hc : firstPlaceCounts votes ≠ [] :=
    foldl_addFirstPlace_ne_nil votes [] (Or.inr hex)
  obtain ⟨k, hk⟩ := pickTop_fst_some _ hc (firstPlaceCounts_val_ge votes)
  rw [hk]
  simp

/-- Witness for C3 at the Scenario B input: threshold 1 (unanimity), tally
X:2, Y:1, so consensus fails but the candidate X is still reported. -/
theorem C3_leading_candidate_reported_witness :
    consensusFromVotes
      [⟨"a", ["X", "Y", "Z"], 0⟩, ⟨"b", ["X", "Z", "Y"], 0⟩,
       ⟨"c", ["Y", "X", "Z"], 0⟩] 1 = (false, some "X") ∧
    (consensusFromVotes
      [⟨"a", ["X", "Y", "Z"], 0⟩, ⟨"b", ["X", "Z", "Y"], 0⟩,
       ⟨"c", ["Y", "X", "Z"], 0⟩] 1).2 ≠ none :=
  ⟨by rw [consensusFromVotes_eq_exec]; decide,
    C3_leading_candidate_reported _ 1 (by decide)
      ⟨⟨"a", ["X", "Y", "Z"], 0⟩, by decide, by decide⟩⟩

/-- C7 (amended): ties are broken by the insertion order of the tally map,
which is first-appearance order in the round's votes — deterministic given
the votes, but not a fixed order over candidates.  Both the consensus
leader and the elimination target are the first entry of the
insertion-ordered tally that attains the maximal value: every earlier entry
is strictly smaller and every entry is no larger. -/
theorem C7_tiebreak_insertion_order :
    (∀ (m : List (String × Nat)) (k : String), (pickTop m).1 = some k →
      ∃ pre post, m = pre ++ (k, (pickTop m).2) :: post ∧
        (∀ p ∈ pre, p.2 < (pickTop m).2) ∧
        ∀ p ∈ m, p.2 ≤ (pickTop m).2) ∧
    ∀ (m : List (String × Nat)) (w : String), pyMaxBySnd m = some w →
      ∃ c pre post, m = pre ++ (w, c) :: post ∧
        (∀ p ∈ pre, p.2 < c) ∧
        ∀ p ∈ m, p.2 ≤ c :=
  ⟨pickTop_spec, pyMaxBySnd_spec⟩

/-- Witness for the amended C7 on a concrete tied tally. -/
theorem C7_tiebreak_insertion_order_witness :
    (∃ pre post, [("A", 2), ("B", 2)] =
        pre ++ ("A", (pickTop [("A", 2), ("B", 2)]).2) :: post ∧
      (∀ p ∈ pre, p.2 < (pickTop [("A", 2), ("B", 2)]).2) ∧
      ∀ p ∈ [("A", 2), ("B", 2)], p.2 ≤ (pickTop [("A", 2), ("B", 2)]).2) ∧
    ∃ c pre post, [("A", 1), ("B", 3)] = pre ++ ("B", c) :: post ∧
      (∀ p ∈ pre, p.2 < c) ∧
      ∀ p ∈ [("A", 1), ("B", 3)], p.2 ≤ c := by
  constructor
  · exact C7_tiebreak_insertion_order.1 [("A", 2), ("B", 2)] "A" (by decide)
  · exact C7_tiebreak_insertion_order.2 [("A", 1), ("B", 3)] "B" (by decide)

/-- Counterexample to C7 as stated: the same first-place tie {A:1, B:1} and
the same aggregate-rank tie {A:3, B:3} arise from the two orderings of the
same two votes, yet the selected candidate and the selected elimination
target flip with the vote order.  No fixed iteration order over the
candidates can produce both outcomes, so the tie-break is the tally map's
insertion order, exactly what the claim denies. -/
theorem C7_tiebreak_counterexample :
    (consensusFromVotes
      [⟨"v1", ["A", "B"], 0⟩, ⟨"v2", ["B", "A"], 0⟩] 1).2 = some "A" ∧
    (consensusFromVotes
      [⟨"v2", ["B", "A"], 0⟩, ⟨"v1", ["A", "B"], 0⟩] 1).2 = some "B" ∧
    pyMaxBySnd (aggregateRanks
      [⟨"v1", ["A", "B"], 0⟩, ⟨"v2", ["B", "A"], 0⟩]) = some "A" ∧
    pyMaxBySnd (aggregateRanks
      [⟨"v2", ["B", "A"], 0⟩, ⟨"v1", ["A", "B"], 0⟩]) = some "B" := by
  refine ⟨?_, ?_, by decide, by decide⟩
  · rw [consensusFromVotes_eq_exec]
    decide
  · rw [consensusFromVotes_eq_exec]
    decide

/-!  ## The elimination policy (claim C6)  -/

/-- C6: whenever the elimination step runs on a roster of more than two
agents, the agent it removes has a maximal aggregate score, where the
aggregate score is the sum over the round's votes of the agent's 1-based
rank position (`_aggregate_ranks`): the result roster is the old roster
with every occurrence of an agent `w` removed, and `w`'s tally entry is no
smaller than any agent's tally entry. -/
theorem C6_eliminates_worst :
    ∀ (roster : List String) (votes : List Vote) (r2 : List String),
      roster.length > 2 → eliminationStep roster votes = some r2 →
      ∃ w c, pyMaxBySnd (aggregateRanks votes) = some w ∧
        r2 = roster.filter (fun p => !decide (p = w)) ∧
        (w, c) ∈ aggregateRanks votes ∧
        ∀ p ∈ aggregateRanks votes, p.2 ≤ c := by
  intro roster votes r2 h3 he
  unfold eliminationStep at he
  rw [if_pos h3] at he
  cases hmax : pyMaxBySnd (aggregateRanks votes) with
  | none => rw [hmax] at he; cases he
  | some w =>
    rw [hmax] at he
    obtain ⟨c, pre, post, heq, _, hmemle⟩ := pyMaxBySnd_spec _ w hmax
    refine ⟨w, c, rfl, (Option.some.inj he).symm, ?_, hmemle⟩
    rw [heq]
    simp

/-- Witness for C6 at the Scenario C input: three voters ranking four
agents; the highest-sum agent D (score 12) is removed and the roster size
becomes 3. -/
theorem C6_eliminates_worst_witness :
    (["A", "B", "C", "D"] : List String).length > 2 ∧
    eliminationStep ["A", "B", "C", "D"]
      [⟨"a", ["A", "B", "C", "D"], 0⟩, ⟨"b", ["A", "B", "C", "D"], 0⟩,
       ⟨"c", ["A", "B", "C", "D"], 0⟩] = some ["A", "B", "C"] ∧
    (["A", "B", "C"] : List String).length = 3 ∧
    ∃ w c,
      pyMaxBySnd (aggregateRanks
        [⟨"a", ["A", "B", "C", "D"], 0⟩, ⟨"b", ["A", "B", "C", "D"], 0⟩,
         ⟨"c", ["A", "B", "C", "D"], 0⟩]) = some w ∧
      (["A", "B", "C"] : List String) =
        (["A", "B", "C", "D"] : List String).filter
          (fun p => !decide (p = w)) ∧
      (w, c) ∈ aggregateRanks
        [⟨"a", ["A", "B", "C", "D"], 0⟩, ⟨"b", ["A", "B", "C", "D"], 0⟩,
         ⟨"c", ["A", "B", "C", "D"], 0⟩] ∧
      ∀ p ∈ aggregateRanks
        [⟨"a", ["A", "B", "C", "D"], 0⟩, ⟨"b", ["A", "B", "C", "D"], 0⟩,
         ⟨"c", ["A", "B", "C", "D"], 0⟩], p.2 ≤ c :=
  ⟨by decide, by decide, by decide,
    C6_eliminates_worst ["A", "B", "C", "D"]
      [⟨"a", ["A", "B", "C", "D"], 0⟩, ⟨"b", ["A", "B", "C", "D"], 0⟩,
       ⟨"c", ["A", "B", "C", "D"], 0⟩] ["A", "B", "C"]
      (by decide) (by decide)⟩

/-!  ## Configuration validation (claim C9)  -/

/-- C9 (amended): `DebateConfig` construction performs no range validation —
every combination of round bounds and threshold is accepted, including
`min_rounds > max_rounds` and thresholds outside (0,1] — while the field
defaults do satisfy `min_rounds ≤ max_rounds` and
`0 < consensus_threshold ≤ 1`. -/
theorem C9_config_no_validation :
    (∀ (q j : String) (minIt maxIt : Nat) (th : ℚ),
      (mkDebateConfig q j minIt maxIt th).isSome = true) ∧
    ((defaultDebateConfig "q").min_iterations ≤
        (defaultDebateConfig "q").max_iterations ∧
      0 < (defaultDebateConfig "q").consensus_threshold ∧
      (defaultDebateConfig "q").consensus_threshold ≤ 1) := by
  refine ⟨fun q j a b th => rfl, ?_, ?_, ?_⟩ <;>
    norm_num [defaultDebateConfig]

/-- Counterexample to C9 as stated: constructing a `DebateConfig` with
`min_rounds = 3 > 1 = max_rounds` and threshold 2 ∉ (0,1] succeeds — the
pydantic model declares no validator that could reject it. -/
theorem C9_config_counterexample :
    (mkDebateConfig "q" "j" 3 1 2).isSome = true ∧
    ¬ (3 ≤ 1) ∧ ¬ ((2 : ℚ) ≤ 1) :=
  ⟨rfl, by decide, by norm_num⟩

/-!  ## Round-loop infrastructure (claims C4, C5, C8, C10)  -/

/-- Every eligible author is in the sanitized ranking (the missing ones are
appended by the second loop). -/
lemma sanitizeRanking_superset (raw : String) (authors : List String) :
    ∀ a ∈ authors, a ∈ sanitizeRanking raw authors := by
  intro a ha
  simp only [sanitizeRanking, List.mem_append, List.mem_filter]
  by_cases h : a ∈ keepValid authors (splitVoteText raw) []
  · exact Or.inl h
  · exact Or.inr ⟨ha, by simp [h]⟩

/-- Every name in the sanitized ranking is an eligible author. -/
lemma sanitizeRanking_subset (raw : String) (authors : List String) :
    ∀ x ∈ sanitizeRanking raw authors, x ∈ authors := by
  intro x hx
  simp only [sanitizeRanking, List.mem_append, List.mem_filter] at hx
  rcases hx with hx | hx
  · obtain ⟨_, hsub⟩ := keepValid_spec authors (splitVoteText raw) [] List.nodup_nil
    rcases hsub x hx with h | h
    · exact absurd h (List.not_mem_nil x)
    · exact h
  · exact hx.1

lemma aggregateRanks_fst_sub (P : String → Prop) (votes : List Vote)
    (hv : ∀ v ∈ votes, ∀ n ∈ v.ranking, P n) :
    ∀ x ∈ (aggregateRanks votes).map Prod.fst, P x := by
  suffices h : ∀ (vs : List Vote) (m : List (String × Nat)),
      (∀ x ∈ m.map Prod.fst, P x) → (∀ v ∈ vs, ∀ n ∈ v.ranking, P n) →
      ∀ x ∈ (vs.foldl addVoteRanks m).map Prod.fst, P x by
    exact h votes [] (by simp) hv
  have hinner : ∀ (ps : List (Nat × String)) (m0 : List (String × Nat)),
      (∀ x ∈ m0.map Prod.fst, P x) → (∀ p ∈ ps, P p.2) →
      ∀ x ∈ (ps.foldl (fun m' p => bump m' p.2 (p.1 + 1)) m0).map Prod.fst,
        P x := by
    intro ps
    induction ps with
    | nil => intro m0 hm0 _; simpa using hm0
    | cons p ps ihp =>
      intro m0 hm0 hps
      simp only [List.foldl_cons]
      apply ihp
      · intro x hx
        rcases (mem_fst_bump m0 p.2 (p.1 + 1) x).1 hx with hx' | rfl
        · exact hm0 x hx'
        · exact hps p (List.mem_cons_self _ _)
      · exact fun q hq => hps q (List.mem_cons_of_mem _ hq)
  intro vs
  induction vs with
  | nil => intro m hm _; simpa using hm
  | cons v rest ih =>
    intro m hm hr
    simp only [List.foldl_cons]
    apply ih
    · simp only [addVoteRanks]
      apply hinner
      · exact hm
      · intro p hp
        exact hr v (List.mem_cons_self _ _) p.2 (List.snd_mem_of_mem_enum hp)
    · exact fun w hw => hr w (List.mem_cons_of_mem _ hw)

lemma foldl_bump_ne_nil :
    ∀ (ps : List (Nat × String)) (m0 : List (String × Nat)),
      (m0 ≠ [] ∨ ps ≠ []) →
      ps.foldl (fun m' p => bump m' p.2 (p.1 + 1)) m0 ≠ [] := by
  intro ps
  induction ps with
  | nil =>
    intro m0 h
    rcases h with h | h
    · simpa using h
    · simp at h
  | cons p ps ihp =>
    intro m0 _
    simp only [List.foldl_cons]
    exact ihp _ (Or.inl (bump_ne_nil _ _ _))

lemma aggregateRanks_ne_nil (votes : List Vote)
    (hex : ∃ v ∈ votes, v.ranking ≠ []) : aggregateRanks votes ≠ [] := by
  suffices h : ∀ (vs : List Vote) (m : List (String × Nat)),
      (m ≠ [] ∨ ∃ v ∈ vs, v.ranking ≠ []) → vs.foldl addVoteRanks m ≠ [] by
    exact h votes [] (Or.inr hex)
  intro vs
  induction vs with
  | nil =>
    intro m h
    rcases h with h | ⟨v, hv, _⟩
    · simpa using h
    · simp at hv
  | cons v rest ih =>
    intro m h
    simp only [List.foldl_cons]
    apply ih
    by_cases hr : v.ranking = []
    · rcases h with h | ⟨w, hw, hwr⟩
      · left
        simpa [addVoteRanks, hr] using h
      · rcases List.mem_cons.1 hw with rfl | hw'
        · exact absurd hr hwr
        · exact Or.inr ⟨w, hw', hwr⟩
    · left
      simp only [addVoteRanks]
      apply foldl_bump_ne_nil
      right
      simpa [List.enum_eq_nil] using hr

lemma pyMaxBySnd_eq_none (m : List (String × Nat)) :
    pyMaxBySnd m = none ↔ m = [] := by
  cases m <;> simp [pyMaxBySnd]

lemma eliminationStep_mkVotes_isSome (rv : Nat → String → String) (i : Nat)
    (roster : List String) :
    (eliminationStep roster (mkVotes rv i roster)).isSome = true := by
  unfold eliminationStep
  by_cases h3 : roster.length > 2
  · rw [if_pos h3]
    cases roster with
    | nil => simp at h3
    | cons a rest =>
      have hex : ∃ v ∈ mkVotes rv i (a :: rest), v.ranking ≠ [] := by
        refine ⟨⟨a, sanitizeRanking (rv i a) (a :: rest), i⟩, ?_, ?_⟩
        · simp [mkVotes]
        · intro hnil
          have hnil' : sanitizeRanking (rv i a) (a :: rest) = [] := hnil
          have hmem := sanitizeRanking_superset (rv i a) (a :: rest) a
            (List.mem_cons_self _ _)
          rw [hnil'] at hmem
          exact List.not_mem_nil a hmem
      have hne := aggregateRanks_ne_nil _ hex
      cases hmax : pyMaxBySnd (aggregateRanks (mkVotes rv i (a :: rest))) with
      | none => exact absurd ((pyMaxBySnd_eq_none _).1 hmax) hne
      | some w => simp [hmax]
  · rw [if_neg h3]
    rfl

lemma length_filter_ne_of_nodup (l : List String) (w : String)
    (hnd : l.Nodup) (hw : w ∈ l) :
    (l.filter (fun p => !decide (p = w))).length + 1 = l.length := by
  induction l with
  | nil => cases hw
  | cons a l ih =>
    rcases List.mem_cons.1 hw with rfl | hw'
    · have hwl : w ∉ l := (List.nodup_cons.1 hnd).1
      rw [List.filter_cons, if_neg (by simp)]
      rw [List.filter_eq_self.2 (fun b hb => by
        have hbw : ¬ b = w := fun hbw => hwl (hbw ▸ hb)
        simp [hbw])]
      simp
    · have ha : ¬ a = w := fun h => (List.nodup_cons.1 hnd).1 (h ▸ hw')
      rw [List.filter_cons, if_pos (by simp [ha])]
      have := ih (List.nodup_cons.1 hnd).2 hw'
      simp only [List.length_cons]
      omega

/-- The elimination step of `run_debate`, when it succeeds on sane input
(distinct roster names, all ranked names drawn from the roster): with more
than two agents it removes exactly one roster member (the result is a
duplicate-free sublist one shorter), otherwise it leaves the roster
unchanged. -/
lemma eliminationStep_spec (roster : List String) (votes : List Vote)
    (r2 : List String) (hnd : roster.Nodup)
    (hvotes : ∀ v ∈ votes, ∀ n ∈ v.ranking, n ∈ roster)
    (he : eliminationStep roster votes = some r2) :
    (roster.length > 2 →
      r2.length + 1 = roster.length ∧ r2.Sublist roster ∧ r2.Nodup) ∧
    (¬ roster.length > 2 → r2 = roster) := by
  unfold eliminationStep at he
  by_cases h3 : roster.length > 2
  · rw [if_pos h3] at he
    cases hmax : pyMaxBySnd (aggregateRanks votes) with
    | none => rw [hmax] at he; cases he
    | some w =>
      rw [hmax] at he
      have hw : w ∈ roster :=
        aggregateRanks_fst_sub (· ∈ roster) votes hvotes w
          (pyMaxBySnd_mem_fst _ _ hmax)
      have hr2 : r2 = roster.filter (fun p => !decide (p = w)) :=
        (Option.some.inj he).symm
      refine ⟨fun _ => ⟨?_, ?_, ?_⟩, fun h => absurd h3 h⟩
      · rw [hr2]
        exact length_filter_ne_of_nodup roster w hnd hw
      · rw [hr2]
        exact List.filter_sublist _
      · rw [hr2]
        exact hnd.filter _
  · rw [if_neg h3] at he
    exact ⟨fun h => absurd h h3, fun _ => (Option.some.inj he).symm⟩

lemma runRoundsAux_succ_fail (cfg : DebateConfig)
    (rv : Nat → String → String) (elim : Bool) (n i : Nat)
    (roster : List String)
    (helim : (if elim then eliminationStep roster (mkVotes rv i roster)
        else some roster) = none) :
    runRoundsAux cfg rv elim (n + 1) i roster = none := by
  simp only [runRoundsAux, helim]

lemma runRoundsAux_succ_stop (cfg : DebateConfig)
    (rv : Nat → String → String) (elim : Bool) (n i : Nat)
    (roster roster2 : List String)
    (helim : (if elim then eliminationStep roster (mkVotes rv i roster)
        else some roster) = some roster2)
    (hstop : (consensusFromVotes (mkVotes rv i roster) cfg.consensus_threshold).1 = true ∧
        i + 1 ≥ cfg.min_iterations) :
    runRoundsAux cfg rv elim (n + 1) i roster =
      some ([roundRec cfg rv i roster], roster2) := by
  simp only [runRoundsAux, helim, roundRec]
  rw [if_pos hstop]

lemma runRoundsAux_succ_cont (cfg : DebateConfig)
    (rv : Nat → String → String) (elim : Bool) (n i : Nat)
    (roster roster2 : List String) (rest : List RoundRecord)
    (fr : List String)
    (helim : (if elim then eliminationStep roster (mkVotes rv i roster)
        else some roster) = some roster2)
    (hstop : ¬ ((consensusFromVotes (mkVotes rv i roster) cfg.consensus_threshold).1 = true ∧
        i + 1 ≥ cfg.min_iterations))
    (hrec : runRoundsAux cfg rv elim n (i + 1) roster2 = some (rest, fr)) :
    runRoundsAux cfg rv elim (n + 1) i roster =
      some (roundRec cfg rv i roster :: rest, fr) := by
  simp only [runRoundsAux, helim, hrec, roundRec]
  rw [if_neg hstop]

lemma runRoundsAux_succ_cont_fail (cfg : DebateConfig)
    (rv : Nat → String → String) (elim : Bool) (n i : Nat)
    (roster roster2 : List String)
    (helim : (if elim then eliminationStep roster (mkVotes rv i roster)
        else some roster) = some roster2)
    (hstop : ¬ ((consensusFromVotes (mkVotes rv i roster) cfg.consensus_threshold).1 = true ∧
        i + 1 ≥ cfg.min_iterations))
    (hrec : runRoundsAux cfg rv elim n (i + 1) roster2 = none) :
    runRoundsAux cfg rv elim (n + 1) i roster = none := by
  simp only [runRoundsAux, helim, hrec]
  rw [if_neg hstop]

/-- Case analysis on one round of the loop: either the elimination step
fails, or the loop stops with this round appended, or it continues. -/
lemma runRoundsAux_succ_cases (cfg : DebateConfig)
    (rv : Nat → String → String) (elim : Bool) (n i : Nat)
    (roster : List String) (iters : List RoundRecord)
    (finalRoster : List String)
    (h : runRoundsAux cfg rv elim (n + 1) i roster = some (iters, finalRoster)) :
    ∃ roster2,
      (if elim then eliminationStep roster (mkVotes rv i roster)
        else some roster) = some roster2 ∧
      ((((consensusFromVotes (mkVotes rv i roster) cfg.consensus_threshold).1 = true ∧
            i + 1 ≥ cfg.min_iterations) ∧ iters = [roundRec cfg rv i roster] ∧
          finalRoster = roster2) ∨
        (¬ ((consensusFromVotes (mkVotes rv i roster) cfg.consensus_threshold).1 = true ∧
            i + 1 ≥ cfg.min_iterations) ∧ ∃ rest,
          runRoundsAux cfg rv elim n (i + 1) roster2 = some (rest, finalRoster) ∧
          iters = roundRec cfg rv i roster :: rest)) := by
  cases helim : (if elim then eliminationStep roster (mkVotes rv i roster)
      else some roster) with
  | none =>
    rw [runRoundsAux_succ_fail cfg rv elim n i roster helim] at h
    cases h
  | some roster2 =>
    refine ⟨roster2, rfl, ?_⟩
    by_cases hstop : (consensusFromVotes (mkVotes rv i roster)
        cfg.consensus_threshold).1 = true ∧ i + 1 ≥ cfg.min_iterations
    · rw [runRoundsAux_succ_stop cfg rv elim n i roster roster2 helim hstop] at h
      have hpair := Option.some.inj h
      exact Or.inl ⟨hstop, (congrArg Prod.fst hpair).symm,
        (congrArg Prod.snd hpair).symm⟩
    · cases hrec : runRoundsAux cfg rv elim n (i + 1) roster2 with
      | none =>
        rw [runRoundsAux_succ_cont_fail cfg rv elim n i roster roster2 helim
          hstop hrec] at h
        cases h
      | some p =>
        obtain ⟨rest, fr⟩ := p
        rw [runRoundsAux_succ_cont cfg rv elim n i roster roster2 rest fr
          helim hstop hrec] at h
        have hpair := Option.some.inj h
        have h1 : roundRec cfg rv i roster :: rest = iters :=
          congrArg Prod.fst hpair
        have h2 : fr = finalRoster := congrArg Prod.snd hpair
        exact Or.inr ⟨hstop, rest, by rw [h2], h1.symm⟩

lemma runRoundsAux_isSome (cfg : DebateConfig) (rv : Nat → String → String)
    (elim : Bool) :
    ∀ fuel i roster, (runRoundsAux cfg rv elim fuel i roster).isSome = true := by
  intro fuel
  induction fuel with
  | zero => intro i roster; rfl
  | succ n ih =>
    intro i roster
    have helim : ∃ roster2,
        (if elim then eliminationStep roster (mkVotes rv i roster)
          else some roster) = some roster2 := by
      by_cases he : elim
      · rw [if_pos he]
        have hs := eliminationStep_mkVotes_isSome rv i roster
        cases hmax : eliminationStep roster (mkVotes rv i roster) with
        | none => rw [hmax] at hs; cases hs
        | some r2 => exact ⟨r2, rfl⟩
      · rw [if_neg he]
        exact ⟨roster, rfl⟩
    obtain ⟨roster2, helim⟩ := helim
    by_cases hstop : (consensusFromVotes (mkVotes rv i roster)
        cfg.consensus_threshold).1 = true ∧ i + 1 ≥ cfg.min_iterations
    · rw [runRoundsAux_succ_stop cfg rv elim n i roster roster2 helim hstop]
      rfl
    · have hs := ih (i + 1) roster2
      cases hrec : runRoundsAux cfg rv elim n (i + 1) roster2 with
      | none => rw [hrec] at hs; cases hs
      | some p =>
        obtain ⟨rest, fr⟩ := p
        rw [runRoundsAux_succ_cont cfg rv elim n i roster roster2 rest fr
          helim hstop hrec]
        rfl

lemma runRoundsAux_ne_nil (cfg : DebateConfig) (rv : Nat → String → String)
    (elim : Bool) (fuel i : Nat) (roster : List String)
    (iters : List RoundRecord) (finalRoster : List String)
    (hf : fuel ≠ 0)
    (h : runRoundsAux cfg rv elim fuel i roster = some (iters, finalRoster)) :
    iters ≠ [] := by
  cases fuel with
  | zero => exact absurd rfl hf
  | succ n =>
    obtain ⟨roster2, _, hcases⟩ :=
      runRoundsAux_succ_cases cfg rv elim n i roster iters finalRoster h
    rcases hcases with ⟨_, h1, _⟩ | ⟨_, rest, _, h1⟩ <;> simp [h1]

/-- Unpack a successful `run_debate` into its round loop result. -/
lemma run_debate_some (cfg : DebateConfig) (roster : List String)
    (rv : Nat → String → String) (elim : Bool)
    (iters : List RoundRecord) (finalRoster : List String)
    (h : run_debate cfg roster rv elim = some (iters, finalRoster)) :
    runRoundsAux cfg rv elim cfg.max_iterations 0 roster =
      some (iters, finalRoster) := by
  unfold run_debate at h
  rcases haux : runRoundsAux cfg rv elim cfg.max_iterations 0 roster
      with _ | p
  · rw [haux] at h; cases h
  · obtain ⟨its, fr⟩ := p
    rw [haux] at h
    have h' : (match its.getLast? with
        | none => (none : Option (List RoundRecord × List String))
        | some _ => some (its, fr)) = some (iters, finalRoster) := h
    rcases hlast : its.getLast? with _ | r
    · rw [hlast] at h'; cases h'
    · rw [hlast] at h'
      cases h'
      rfl

lemma runRoundsAux_nil_fin (cfg : DebateConfig) (rv : Nat → String → String)
    (elim : Bool) (fuel i : Nat) (roster fr : List String)
    (h : runRoundsAux cfg rv elim fuel i roster = some ([], fr)) :
    fr = roster := by
  cases fuel with
  | zero =>
    have h' : some (([] : List RoundRecord), roster) = some ([], fr) := h
    exact (congrArg Prod.snd (Option.some.inj h')).symm
  | succ n =>
    exact absurd rfl
      (runRoundsAux_ne_nil cfg rv elim (n + 1) i roster [] fr
        (Nat.succ_ne_zero n) h)

/-- Core loop facts behind C4: the number of rounds never exceeds the fuel,
round indices are consecutive from the start index, and finishing early
means the last round passed the consensus-and-`min_iterations` stop test. -/
lemma runRoundsAux_main (cfg : DebateConfig) (rv : Nat → String → String)
    (elim : Bool) :
    ∀ fuel i roster iters finalRoster,
      runRoundsAux cfg rv elim fuel i roster = some (iters, finalRoster) →
      iters.length ≤ fuel ∧
      (∀ k (hk : k < iters.length), (iters.get ⟨k, hk⟩).iteration = i + k) ∧
      (iters.length < fuel →
        ∃ last, iters.getLast? = some last ∧
          last.consensus_reached = true ∧
          cfg.min_iterations ≤ last.iteration + 1) := by
  intro fuel
  induction fuel with
  | zero =>
    intro i roster iters finalRoster h
    have h' : some (([] : List RoundRecord), roster) = some (iters, finalRoster) := h
    cases h'
    refine ⟨le_rfl, ?_, ?_⟩
    · intro k hk
      simp at hk
    · intro hlt
      simp at hlt
  | succ n ih =>
    intro i roster iters finalRoster h
    obtain ⟨roster2, helim, hcases⟩ :=
      runRoundsAux_succ_cases cfg rv elim n i roster iters finalRoster h
    rcases hcases with ⟨hstop, hi, hf⟩ | ⟨hstop, rest, hrec, hi⟩
    · subst hi
      refine ⟨by simp only [List.length_singleton]; omega, ?_, ?_⟩
      · intro k hk
        have hk0 : k = 0 := Nat.lt_one_iff.1 (by simpa using hk)
        subst hk0
        simp [roundRec]
      · intro _
        refine ⟨roundRec cfg rv i roster, by simp, ?_, ?_⟩
        · exact hstop.1
        · exact hstop.2
    · subst hi
      obtain ⟨ihlen, ihidx, ihstop⟩ := ih (i + 1) roster2 rest finalRoster hrec
      refine ⟨by simpa using Nat.succ_le_succ ihlen, ?_, ?_⟩
      · intro k hk
        cases k with
        | zero => simp [roundRec]
        | succ k' =>
          have hk' : k' < rest.length := by
            simp only [List.length_cons] at hk
            omega
          have hidx := ihidx k' hk'
          simp only [List.get_cons_succ]
          rw [hidx]
          omega
      · intro hlt
        have hlt' : rest.length < n := by
          simp only [List.length_cons] at hlt
          omega
        obtain ⟨last, hl, hcr, hmin⟩ := ihstop hlt'
        refine ⟨last, ?_, hcr, hmin⟩
        rw [← hl]
        cases rest with
        | nil => cases hl
        | cons b m => exact List.getLast?_cons_cons

/-- Every sanitized ranking produced in a round draws its names from that
round's roster. -/
lemma mkVotes_ranking_sub (rv : Nat → String → String) (i : Nat)
    (roster : List String) :
    ∀ v ∈ mkVotes rv i roster, ∀ nm ∈ v.ranking, nm ∈ roster := by
  intro v hv nm hnm
  simp only [mkVotes, List.mem_map] at hv
  obtain ⟨voter, _, rfl⟩ := hv
  exact sanitizeRanking_subset _ _ nm hnm

/-- Roster-size invariant behind C5: starting from a duplicate-free roster
of at least two agents, every recorded round and the final roster keep at
least two duplicate-free agents. -/
lemma runRoundsAux_rosterInv (cfg : DebateConfig) (rv : Nat → String → String)
    (elim : Bool) :
    ∀ fuel i roster iters finalRoster,
      roster.Nodup → 2 ≤ roster.length →
      runRoundsAux cfg rv elim fuel i roster = some (iters, finalRoster) →
      (∀ r ∈ iters, 2 ≤ r.authors.length ∧ r.authors.Nodup) ∧
      2 ≤ finalRoster.length ∧ finalRoster.Nodup := by
  intro fuel
  induction fuel with
  | zero =>
    intro i roster iters finalRoster hnd h2 h
    have h' : some (([] : List RoundRecord), roster) = some (iters, finalRoster) := h
    cases h'
    exact ⟨by simp, h2, hnd⟩
  | succ n ih =>
    intro i roster iters finalRoster hnd h2 h
    obtain ⟨roster2, helim, hcases⟩ :=
      runRoundsAux_succ_cases cfg rv elim n i roster iters finalRoster h
    have h2' : 2 ≤ roster2.length ∧ roster2.Nodup := by
      by_cases he : elim
      · rw [if_pos he] at helim
        obtain ⟨hbig, hsmall⟩ := eliminationStep_spec roster _ roster2 hnd
          (mkVotes_ranking_sub rv i roster) helim
        by_cases h3 : roster.length > 2
        · obtain ⟨hlen, _, hnd2⟩ := hbig h3
          exact ⟨by omega, hnd2⟩
        · rw [hsmall h3]
          exact ⟨h2, hnd⟩
      · rw [if_neg he] at helim
        cases helim
        exact ⟨h2, hnd⟩
    rcases hcases with ⟨hstop, hi, hf⟩ | ⟨hstop, rest, hrec, hi⟩
    · subst hi
      subst hf
      refine ⟨?_, h2'.1, h2'.2⟩
      intro r hr
      have hr0 : r = roundRec cfg rv i roster := by simpa using hr
      subst hr0
      exact ⟨h2, hnd⟩
    · subst hi
      obtain ⟨hall, hfin2, hfinnd⟩ :=
        ih (i + 1) roster2 rest finalRoster h2'.2 h2'.1 hrec
      refine ⟨?_, hfin2, hfinnd⟩
      intro r hr
      rcases List.mem_cons.1 hr with rfl | hr'
      · exact ⟨h2, hnd⟩
      · exact hall r hr'

/-- Round-to-round structure behind C5 and C8: the first round's roster is
the initial roster, every recorded round's votes are the sanitized votes of
its own roster and its consensus fields are the consensus test of its own
votes, and the roster of each following round (and the final roster) is
obtained from the previous round by the elimination step (identity when
elimination is off). -/
lemma runRoundsAux_chain (cfg : DebateConfig) (rv : Nat → String → String)
    (elim : Bool) :
    ∀ fuel i roster iters finalRoster,
      runRoundsAux cfg rv elim fuel i roster = some (iters, finalRoster) →
      (∀ h0 : 0 < iters.length, (iters.get ⟨0, h0⟩).authors = roster) ∧
      (∀ r ∈ iters, r.votes = mkVotes rv r.iteration r.authors ∧
        (r.consensus_reached, r.consensus_candidate) =
          consensusFromVotes r.votes cfg.consensus_threshold) ∧
      (∀ k (hk : k + 1 < iters.length),
        (if elim then
            eliminationStep (iters.get ⟨k, Nat.lt_of_succ_lt hk⟩).authors
              (iters.get ⟨k, Nat.lt_of_succ_lt hk⟩).votes
          else some (iters.get ⟨k, Nat.lt_of_succ_lt hk⟩).authors) =
          some ((iters.get ⟨k + 1, hk⟩).authors)) ∧
      (∀ last, iters.getLast? = some last →
        (if elim then eliminationStep last.authors last.votes
          else some last.authors) = some finalRoster) := by
  intro fuel
  induction fuel with
  | zero =>
    intro i roster iters finalRoster h
    have h' : some (([] : List RoundRecord), roster) = some (iters, finalRoster) := h
    cases h'
    refine ⟨?_, ?_, ?_, ?_⟩
    · intro h0; simp at h0
    · intro r hr; simp at hr
    · intro k hk; simp at hk
    · intro last hl; cases hl
  | succ n ih =>
    intro i roster iters finalRoster h
    obtain ⟨roster2, helim, hcases⟩ :=
      runRoundsAux_succ_cases cfg rv elim n i roster iters finalRoster h
    rcases hcases with ⟨hstop, hi, hf⟩ | ⟨hstop, rest, hrec, hi⟩
    · subst hi
      subst hf
      refine ⟨?_, ?_, ?_, ?_⟩
      · intro h0; simp [roundRec]
      · intro r hr
        have hr0 : r = roundRec cfg rv i roster := by simpa using hr
        subst hr0
        exact ⟨rfl, rfl⟩
      · intro k hk
        simp at hk
      · intro last hl
        have hl0 : last = roundRec cfg rv i roster := by simpa using hl.symm
        subst hl0
        exact helim
    · subst hi
      obtain ⟨ih0, ihrec, ihpair, ihlast⟩ :=
        ih (i + 1) roster2 rest finalRoster hrec
      refine ⟨?_, ?_, ?_, ?_⟩
      · intro h0; simp [roundRec]
      · intro r hr
        rcases List.mem_cons.1 hr with rfl | hr'
        · exact ⟨rfl, rfl⟩
        · exact ihrec r hr'
      · intro k hk
        cases k with
        | zero =>
          have hrest : 0 < rest.length := by
            simp only [List.length_cons] at hk
            omega
          simp only [List.get_cons_succ, List.get_cons_zero]
          rw [ih0 hrest]
          exact helim
        | succ k' =>
          have hk' : k' + 1 < rest.length := by
            simp only [List.length_cons] at hk
            omega
          have := ihpair k' hk'
          simpa only [List.get_cons_succ] using this
      · intro last hl
        cases rest with
        | nil =>
          have hfr : finalRoster = roster2 :=
            runRoundsAux_nil_fin cfg rv elim n (i + 1) roster2 finalRoster hrec
          have hl0 : last = roundRec cfg rv i roster := by simpa using hl.symm
          subst hl0
          rw [hfr]
          exact helim
        | cons b m =>
          rw [List.getLast?_cons_cons] at hl
          exact ihlast last hl

lemma oneHalf_eq : oneHalf = 1 / 2 := by
  have h := Rat.num_div_den oneHalf
  rw [← h]
  simp only [oneHalf]
  push_cast
  norm_num

/-- C4: the orchestrator executes at most `max_iterations` rounds with
consecutive indices from 0, and stops before `max_iterations` only when the
last executed round reached consensus at index `i` with
`i + 1 ≥ min_iterations`; and the Scenario E instance: with
`min_iterations = 2`, `max_iterations = 5` and consensus already reached at
round 0, round 1 is still executed and the debate stops after it. -/
theorem C4_termination :
    (∀ (cfg : DebateConfig) (roster : List String)
        (rv : Nat → String → String) (elim : Bool)
        (iters : List RoundRecord) (finalRoster : List String),
      cfg.min_iterations ≤ cfg.max_iterations →
      run_debate cfg roster rv elim = some (iters, finalRoster) →
      iters.length ≤ cfg.max_iterations ∧
      (∀ k (hk : k < iters.length), (iters.get ⟨k, hk⟩).iteration = k) ∧
      (iters.length < cfg.max_iterations →
        ∃ last, iters.getLast? = some last ∧
          last.consensus_reached = true ∧
          cfg.min_iterations ≤ last.iteration + 1)) ∧
    run_debate ⟨"q", "j", 2, 5, 1⟩ ["A", "B"] (fun _ _ => "A") false =
      some
        ([⟨0, ["A", "B"], [⟨"A", ["A", "B"], 0⟩, ⟨"B", ["A", "B"], 0⟩],
            true, some "A"⟩,
          ⟨1, ["A", "B"], [⟨"A", ["A", "B"], 1⟩, ⟨"B", ["A", "B"], 1⟩],
            true, some "A"⟩],
         ["A", "B"]) := by
  constructor
  · intro cfg roster rv elim iters finalRoster _ h
    have haux := run_debate_some cfg roster rv elim iters finalRoster h
    obtain ⟨h1, h2, h3⟩ := runRoundsAux_main cfg rv elim cfg.max_iterations 0
      roster iters finalRoster haux
    refine ⟨h1, ?_, h3⟩
    intro k hk
    simpa using h2 k hk
  · rw [run_debate_eq_exec]
    decide

/-- Witness for C4 at a one-round debate with an empty roster. -/
theorem C4_termination_witness :
    (0 ≤ 1) ∧
    (([⟨0, [], [], false, none⟩] : List RoundRecord).length ≤ 1 ∧
      (∀ k (hk : k < ([⟨0, [], [], false, none⟩] : List RoundRecord).length),
        (([⟨0, [], [], false, none⟩] : List RoundRecord).get ⟨k, hk⟩).iteration
          = k) ∧
      (([⟨0, [], [], false, none⟩] : List RoundRecord).length < 1 →
        ∃ last,
          ([⟨0, [], [], false, none⟩] : List RoundRecord).getLast? = some last ∧
          last.consensus_reached = true ∧ 0 ≤ last.iteration + 1)) :=
  ⟨by decide,
    C4_termination.1 ⟨"q", "j", 0, 1, 1⟩ [] (fun _ _ => "") false
      [⟨0, [], [], false, none⟩] [] (by decide)
      (by rw [run_debate_eq_exec]; decide)⟩

lemma mem_of_getLast?_eq {α : Type} (l : List α) (a : α)
    (h : l.getLast? = some a) : a ∈ l := by
  induction l with
  | nil => cases h
  | cons b m ih =>
    cases m with
    | nil =>
      have hb : b = a := Option.some.inj h
      exact hb ▸ List.mem_cons_self _ _
    | cons c m' =>
      rw [List.getLast?_cons_cons] at h
      exact List.mem_cons_of_mem _ (ih h)

/-- C5: with elimination enabled and a duplicate-free starting roster of at
least two agents, each recorded round with more than two members is
followed by a roster with exactly one member removed (a sublist one
shorter), a round with two or fewer members is followed by the same roster,
and every round's roster and the final roster keep at least two members. -/
theorem C5_elimination_roster_bounds :
    ∀ (cfg : DebateConfig) (roster : List String)
      (rv : Nat → String → String) (iters : List RoundRecord)
      (finalRoster : List String),
      roster.Nodup → 2 ≤ roster.length →
      run_debate cfg roster rv true = some (iters, finalRoster) →
      (∀ r ∈ iters, 2 ≤ r.authors.length) ∧ 2 ≤ finalRoster.length ∧
      (∀ k (hk : k + 1 < iters.length),
        ((iters.get ⟨k, Nat.lt_of_succ_lt hk⟩).authors.length > 2 →
          (iters.get ⟨k + 1, hk⟩).authors.length + 1 =
            (iters.get ⟨k, Nat.lt_of_succ_lt hk⟩).authors.length ∧
          (iters.get ⟨k + 1, hk⟩).authors.Sublist
            (iters.get ⟨k, Nat.lt_of_succ_lt hk⟩).authors) ∧
        (¬ (iters.get ⟨k, Nat.lt_of_succ_lt hk⟩).authors.length > 2 →
          (iters.get ⟨k + 1, hk⟩).authors =
            (iters.get ⟨k, Nat.lt_of_succ_lt hk⟩).authors)) ∧
      (∀ last, iters.getLast? = some last →
        (last.authors.length > 2 →
          finalRoster.length + 1 = last.authors.length ∧
          finalRoster.Sublist last.authors) ∧
        (¬ last.authors.length > 2 → finalRoster = last.authors)) := by
  intro cfg roster rv iters finalRoster hnd h2 h
  have haux := run_debate_some cfg roster rv true iters finalRoster h
  obtain ⟨hall, hfin2, _⟩ := runRoundsAux_rosterInv cfg rv true
    cfg.max_iterations 0 roster iters finalRoster hnd h2 haux
  obtain ⟨_, hrec, hpair, hlastR⟩ := runRoundsAux_chain cfg rv true
    cfg.max_iterations 0 roster iters finalRoster haux
  refine ⟨fun r hr => (hall r hr).1, hfin2, ?_, ?_⟩
  · intro k hk
    have hrmem : iters.get ⟨k, Nat.lt_of_succ_lt hk⟩ ∈ iters :=
      List.get_mem _ _ _
    have hstep := hpair k hk
    rw [if_pos rfl] at hstep
    have hv : ∀ v ∈ (iters.get ⟨k, Nat.lt_of_succ_lt hk⟩).votes,
        ∀ nm ∈ v.ranking, nm ∈ (iters.get ⟨k, Nat.lt_of_succ_lt hk⟩).authors := by
      rw [(hrec _ hrmem).1]
      exact mkVotes_ranking_sub rv _ _
    obtain ⟨hbig, hsmall⟩ :=
      eliminationStep_spec _ _ _ (hall _ hrmem).2 hv hstep
    exact ⟨fun h3 => ⟨(hbig h3).1, (hbig h3).2.1⟩, hsmall⟩
  · intro last hl
    have hlmem : last ∈ iters := mem_of_getLast?_eq iters last hl
    have hstep := hlastR last hl
    rw [if_pos rfl] at hstep
    have hv : ∀ v ∈ last.votes, ∀ nm ∈ v.ranking, nm ∈ last.authors := by
      rw [(hrec last hlmem).1]
      exact mkVotes_ranking_sub rv _ _
    obtain ⟨hbig, hsmall⟩ :=
      eliminationStep_spec _ _ _ (hall last hlmem).2 hv hstep
    exact ⟨fun h3 => ⟨(hbig h3).1, (hbig h3).2.1⟩, hsmall⟩

/-- Witness for C5: a three-agent debate that reaches consensus in round 0
and eliminates the worst-placed agent C, leaving two agents. -/
theorem C5_elimination_roster_bounds_witness :
    (["A", "B", "C"] : List String).Nodup ∧
    2 ≤ (["A", "B", "C"] : List String).length ∧
    (∀ r ∈ ([⟨0, ["A", "B", "C"],
        [⟨"A", ["A", "B", "C"], 0⟩, ⟨"B", ["A", "B", "C"], 0⟩,
         ⟨"C", ["A", "B", "C"], 0⟩], true, some "A"⟩] : List RoundRecord),
      2 ≤ r.authors.length) ∧
    2 ≤ (["A", "B"] : List String).length := by
  refine ⟨by decide, by decide, ?_, by decide⟩
  have h := C5_elimination_roster_bounds ⟨"q", "j", 1, 2, 1⟩ ["A", "B", "C"]
    (fun _ _ => "")
    [⟨0, ["A", "B", "C"],
      [⟨"A", ["A", "B", "C"], 0⟩, ⟨"B", ["A", "B", "C"], 0⟩,
       ⟨"C", ["A", "B", "C"], 0⟩], true, some "A"⟩] ["A", "B"]
    (by decide) (by decide) (by rw [run_debate_eq_exec]; decide)
  exact h.1

/-- C8 (amended): elimination runs after the consensus test, so every
recorded round's `consensus_reached` and `consensus_candidate` are exactly
the consensus test of that round's own votes, unaffected by the removal —
but the removed agent may be the consensus candidate itself (see the
counterexample), so removal is not excluded for the candidate. -/
theorem C8_consensus_before_elimination :
    ∀ (cfg : DebateConfig) (roster : List String)
      (rv : Nat → String → String) (elim : Bool)
      (iters : List RoundRecord) (finalRoster : List String),
      run_debate cfg roster rv elim = some (iters, finalRoster) →
      ∀ r ∈ iters, (r.consensus_reached, r.consensus_candidate) =
        consensusFromVotes r.votes cfg.consensus_threshold := by
  intro cfg roster rv elim iters finalRoster h r hr
  have haux := run_debate_some cfg roster rv elim iters finalRoster h
  exact ((runRoundsAux_chain cfg rv elim cfg.max_iterations 0 roster iters
    finalRoster haux).2.1 r hr).2

/-- Witness for the amended C8 at the three-agent consensus round. -/
theorem C8_consensus_before_elimination_witness :
    ((⟨0, ["A", "B", "C"],
        [⟨"A", ["A", "B", "C"], 0⟩, ⟨"B", ["A", "B", "C"], 0⟩,
         ⟨"C", ["A", "B", "C"], 0⟩], true, some "A"⟩ :
        RoundRecord).consensus_reached,
      (⟨0, ["A", "B", "C"],
        [⟨"A", ["A", "B", "C"], 0⟩, ⟨"B", ["A", "B", "C"], 0⟩,
         ⟨"C", ["A", "B", "C"], 0⟩], true, some "A"⟩ :
        RoundRecord).consensus_candidate) =
      consensusFromVotes
        (⟨0, ["A", "B", "C"],
          [⟨"A", ["A", "B", "C"], 0⟩, ⟨"B", ["A", "B", "C"], 0⟩,
           ⟨"C", ["A", "B", "C"], 0⟩], true, some "A"⟩ :
          RoundRecord).votes (1 : ℚ) :=
  C8_consensus_before_elimination ⟨"q", "j", 1, 2, 1⟩ ["A", "B", "C"]
    (fun _ _ => "") true
    [⟨0, ["A", "B", "C"],
      [⟨"A", ["A", "B", "C"], 0⟩, ⟨"B", ["A", "B", "C"], 0⟩,
       ⟨"C", ["A", "B", "C"], 0⟩], true, some "A"⟩] ["A", "B"]
    (by rw [run_debate_eq_exec]; decide) _ (by decide)

/-- Counterexample to C8 as stated: a four-agent round with threshold 1/2
(`oneHalf`) in which agent A wins consensus with 2 of 4 first-place votes
while simultaneously having the (tied, insertion-order-first) worst
aggregate rank score, so the elimination step removes A — the consensus
candidate — in the very round where it triggered consensus: the final
roster is `["B", "C", "D"]`. -/
theorem C8_counterexample :
    run_debate ⟨"q", "j", 1, 1, oneHalf⟩ ["A", "B", "C", "D"]
      (fun _ v => if v = "A" then "A,D,C,B" else if v = "B" then "A,D,B,C"
        else if v = "C" then "C,B,D,A" else "B,C,D,A") true =
      some ([⟨0, ["A", "B", "C", "D"],
          [⟨"A", ["A", "D", "C", "B"], 0⟩, ⟨"B", ["A", "D", "B", "C"], 0⟩,
           ⟨"C", ["C", "B", "D", "A"], 0⟩, ⟨"D", ["B", "C", "D", "A"], 0⟩],
          true, some "A"⟩], ["B", "C", "D"]) ∧
    oneHalf = 1 / 2 := by
  refine ⟨?_, oneHalf_eq⟩
  rw [run_debate_eq_exec]
  decide

/-- C10: `run_debate` returns a result exactly when `max_iterations ≥ 1`;
with `max_iterations = 0` the round loop runs zero times, the history stays
empty, and the final-results rendering's last-element access fails. -/
theorem C10_zero_iterations_fails :
    ∀ (cfg : DebateConfig) (roster : List String)
      (rv : Nat → String → String) (elim : Bool),
      (run_debate cfg roster rv elim).isSome = true ↔
        0 < cfg.max_iterations := by
  intro cfg roster rv elim
  constructor
  · intro h
    by_contra h0
    have hmax : cfg.max_iterations = 0 := by omega
    unfold run_debate at h
    rw [hmax] at h
    have h' : runRoundsAux cfg rv elim 0 0 roster = some ([], roster) := rfl
    rw [h'] at h
    exact Bool.noConfusion (show false = true from h)
  · intro h0
    obtain ⟨n, hn⟩ : ∃ n, cfg.max_iterations = n + 1 :=
      ⟨cfg.max_iterations - 1, by omega⟩
    unfold run_debate
    rw [hn]
    have hsome := runRoundsAux_isSome cfg rv elim (n + 1) 0 roster
    cases haux : runRoundsAux cfg rv elim (n + 1) 0 roster with
    | none => rw [haux] at hsome; cases hsome
    | some p =>
      obtain ⟨iters, fr⟩ := p
      have hne : iters ≠ [] :=
        runRoundsAux_ne_nil cfg rv elim (n + 1) 0 roster iters fr
          (Nat.succ_ne_zero n) haux
      cases hlast : iters.getLast? with
      | none => exact absurd (List.getLast?_eq_none_iff.1 hlast) hne
      | some r =>
        have hg : (match iters.getLast? with
            | none => (none : Option (List RoundRecord × List String))
            | some _ => some (iters, fr)).isSome = true := by
          rw [hlast]
          rfl
        exact hg

end Council
